import Mathlib

/-!
# Verification of the blade performance-analysis scripts

Shallow embedding of the two analysis utilities of the repository:

* `scripts/analyze-trace.py` — Chrome DevTools CPU-profile trace analysis:
  stack reconstruction (`get_full_stack`), sample aggregation
  (`analyze_samples`), the bottleneck classifier of
  `print_bottleneck_analysis`, and the active-time percentage computed in
  `print_report`.
* `scripts/analyze-webgpu-inspector.py` — WebGPU Inspector recording
  analysis: the regex scans of `parse_webgpu_recording`, `compute_summary`,
  and the draw-configuration histogram of `print_report`.

Python `dict`s keyed by ints/strings are embedded as association lists or as
total functions with pointwise update; machine integers are `Nat` (all the
quantities involved — ids, counts, microsecond deltas, sizes — are
non-negative integers in the data model); Python's true division is embedded
as `Rat` division; a `ZeroDivisionError` is embedded as an `Option` that is
`none` exactly when Python would raise.
-/

namespace Blade

/-- One entry of the profile-node table built by `extract_cpu_profile`
(`analyze-trace.py` lines 36-46): the recorded call-frame fields plus the
nullable parent id. -/
structure Node where
  functionName : String
  url : String
  lineNumber : Option Int
  columnNumber : Option Int
  codeType : String
  parent : Option Nat
  deriving Repr, DecidableEq

/-- The node table: a Python dict from node id to node, embedded as an
association list in insertion order; lookup takes the most recent binding,
as Python assignment `nodes[node_id] = ...` overwrites earlier ones. -/
def dictGet (nodes : List (Nat × Node)) (k : Nat) : Option Node :=
  (nodes.reverse.find? (fun p => p.1 == k)).map Prod.snd

theorem dictGet_mem {nodes : List (Nat × Node)} {k : Nat} {v : Node}
    (h : dictGet nodes k = some v) : k ∈ nodes.map Prod.fst := by
  unfold dictGet at h
  rcases hf : nodes.reverse.find? (fun p => p.1 == k) with _ | p
  · rw [hf] at h; simp at h
  · have hp : p ∈ nodes.reverse := List.mem_of_find?_eq_some hf
    have hk : p.1 = k := by
      have := List.find?_some hf
      simpa using this
    rw [List.mem_reverse] at hp
    rw [← hk]
    exact List.mem_map_of_mem Prod.fst hp

/-- The loop of `get_full_stack` (`analyze-trace.py` lines 56-66):
`while current and current not in visited` — note the Python truthiness
test also stops at node id `0`.  Walks parent links, recording (id, name)
pairs leaf-first; stops at a falsy id, an already visited id, or a missing
node.  Termination measure: the number of distinct node-table keys not yet
visited. -/
def stackLoop (nodes : List (Nat × Node)) (current : Option Nat)
    (visited : List Nat) : List (Nat × String) :=
  match current with
  | none => []
  | some c =>
    if c = 0 then []
    else if hv : c ∈ visited then []
    else
      match hn : dictGet nodes c with
      | none => []
      | some node => (c, node.functionName) :: stackLoop nodes node.parent (c :: visited)
termination_by ((nodes.map Prod.fst).toFinset \ visited.toFinset).card
decreasing_by
  have hck : c ∈ (nodes.map Prod.fst).toFinset := List.mem_toFinset.2 (dictGet_mem hn)
  have hins : (c :: visited).toFinset = insert c visited.toFinset := List.toFinset_cons
  rw [hins, Finset.sdiff_insert]
  exact Finset.card_erase_lt_of_mem
    (Finset.mem_sdiff.2 ⟨hck, fun h => hv (List.mem_toFinset.1 h)⟩)

/-- `get_full_stack(nodes, node_id)` (`analyze-trace.py` lines 54-67). -/
def get_full_stack (nodes : List (Nat × Node)) (node_id : Nat) :
    List (Nat × String) :=
  stackLoop nodes (some node_id) []

/-- A node record with only a name and a parent set, all other call-frame
fields defaulted (`call_frame.get` defaults of `extract_cpu_profile`). -/
def mkNode (name : String) (parent : Option Nat) : Node :=
  ⟨name, "", none, none, "", parent⟩

/-! ## The aggregator (`analyze_samples`, `analyze-trace.py` lines 70-111) -/

/-- The four per-function-name accumulators plus the parent→child edge
counter of `analyze_samples`.  Python `defaultdict(int)`s are embedded as
total functions from names to counts (missing key ↦ 0). -/
structure Analysis where
  self_samples : String → Nat
  self_time : String → Nat
  total_samples : String → Nat
  total_time : String → Nat
  call_tree : String → String → Nat

/-- The all-zero accumulators at the start of `analyze_samples`. -/
def emptyAnalysis : Analysis :=
  ⟨fun _ => 0, fun _ => 0, fun _ => 0, fun _ => 0, fun _ _ => 0⟩

/-- `m[k] += v` on a `defaultdict(int)`. -/
def bump (m : String → Nat) (k : String) (v : Nat) : String → Nat :=
  fun s => if s = k then m s + v else m s

/-- `call_tree[p][c] += 1` on the nested `defaultdict`. -/
def bumpEdge (t : String → String → Nat) (p c : String) :
    String → String → Nat :=
  fun a b => if a = p ∧ b = c then t a b + 1 else t a b

/-- The inner loop of `analyze_samples` (lines 93-103): walk the stack with
a `seen` set, counting each distinct function name once for the total
metrics, and incrementing the call-tree edge (`stack[j+1].name → name`) for
every adjacent pair. -/
def totalLoop (delta : Nat) (a : Analysis) (stack : List (Nat × String))
    (seen : List String) : Analysis :=
  match stack with
  | [] => a
  | (_, name) :: rest =>
    let step :=
      if name ∈ seen then (a, seen)
      else ({ a with total_samples := bump a.total_samples name 1,
                     total_time := bump a.total_time name delta }, name :: seen)
    let a2 :=
      match rest with
      | [] => step.1
      | (_, pname) :: _ => { step.1 with call_tree := bumpEdge step.1.call_tree pname name }
    totalLoop delta a2 rest step.2

/-- The body of `analyze_samples`' outer loop (lines 80-103) for one sample:
resolve the stack, skip the sample if it is empty, attribute self metrics to
the leaf, then run the distinct-name total/call-tree loop with a fresh
`seen` set. -/
def processSample (nodes : List (Nat × Node)) (a : Analysis) (node_id : Nat)
    (delta : Nat) : Analysis :=
  match get_full_stack nodes node_id with
  | [] => a
  | (leaf_id, leaf_name) :: rest =>
    let a1 := { a with self_samples := bump a.self_samples leaf_name 1,
                       self_time := bump a.self_time leaf_name delta }
    totalLoop delta a1 ((leaf_id, leaf_name) :: rest) []

/-- `analyze_samples(nodes, samples, time_deltas)` (lines 70-111): fold over
the samples in order; the time delta is `time_deltas[i]` when the index is
in range and `0` otherwise, exactly as in line 81. -/
def analyze_samples (nodes : List (Nat × Node)) (samples : List Nat)
    (time_deltas : List Nat) : Analysis :=
  (samples.enum).foldl
    (fun a p => processSample nodes a p.2 (time_deltas.getD p.1 0))
    emptyAnalysis

/-! ## Bottleneck classifier (`print_bottleneck_analysis`, lines 226-273) -/

/-- `str.lower()`. -/
def lower (s : String) : String :=
  String.mk (s.data.map Char.toLower)

/-- Python's substring test `pat in s`. -/
def containsStr (pat s : String) : Bool :=
  s.data.tails.any (fun t => pat.data.isPrefixOf t)

/-- The `elif` chain of `print_bottleneck_analysis` (lines 245-262): maps a
function name to the category it is filed under, or `none` when no pattern
matches. -/
def classifyName (n : String) : Option String :=
  if containsStr "new_from_slice" n then some "WASM→JS Memory Copy"
  else if containsStr "write_buffer" (lower n) then some "GPU Buffer Upload"
  else if containsStr "sync_dirty" (lower n) then some "Dirty Buffer Sync"
  else if containsStr "createBindGroup" n then some "Bind Group Creation"
  else if containsStr "createCommandEncoder" n then some "Command Encoder Creation"
  else if containsStr "wasm-to-js" (lower n) then some "WASM→JS Call"
  else if containsStr "js-to-wasm" (lower n) then some "JS→WASM Call"
  else if containsStr "submit" (lower n) && containsStr "wbg" n then some "GPU Submit"
  else if containsStr "naga" (lower n) then some "Shader Compilation (Naga)"
  else none

/-- `(t / total_time_us * 100) if total_time_us else 0`, the guarded
percentage used throughout the reporters; Python float division is embedded
as exact rational division. -/
def pctOf (total_time_us t : Nat) : Rat :=
  if total_time_us ≠ 0 then (t : Rat) / (total_time_us : Rat) * 100 else 0

/-- One tuple `(name, t, pct, self_pct)` appended to a category list. -/
structure CatEntry where
  name : String
  t : Nat
  pct : Rat
  self_pct : Rat
  deriving Repr, DecidableEq

/-- The category-building loop of `print_bottleneck_analysis` (lines
235-262): for each `(name, t)` item of the total-time map, skip it when its
share of the denominator is below 0.5%, otherwise file it under the
category chosen by the `elif` chain (if any).  The `defaultdict(list)` is
embedded as a total function from category name to the appended list. -/
def bottleneckStep (self_time : String → Nat) (total_time_us : Nat)
    (cats : String → List CatEntry) (nt : String × Nat) :
    String → List CatEntry :=
  let pct := pctOf total_time_us nt.2
  let self_pct := pctOf total_time_us (self_time nt.1)
  if pct < 1/2 then cats
  else
    match classifyName nt.1 with
    | none => cats
    | some cat =>
      fun s => if s = cat then cats s ++ [⟨nt.1, nt.2, pct, self_pct⟩] else cats s

/-- The full category-building loop over `total_time.items()`. -/
def bottleneckCategories (self_time : String → Nat) (total_time_us : Nat)
    (items : List (String × Nat)) : String → List CatEntry :=
  items.foldl (bottleneckStep self_time total_time_us) (fun _ => [])

/-- The fixed, ordered pattern list of the spec's bottleneck-classifier
contract, written as (predicate, category) pairs in the order the spec
lists them: memory-copy, buffer-upload, dirty-sync, bind-group creation,
command-encoder creation, wasm-to-js, js-to-wasm, submission, shader
compilation.  Stated from the spec's words for comparison with the
source-derived `classifyName`. -/
def patternTable : List ((String → Bool) × String) :=
  [ (fun n => containsStr "new_from_slice" n, "WASM→JS Memory Copy"),
    (fun n => containsStr "write_buffer" (lower n), "GPU Buffer Upload"),
    (fun n => containsStr "sync_dirty" (lower n), "Dirty Buffer Sync"),
    (fun n => containsStr "createBindGroup" n, "Bind Group Creation"),
    (fun n => containsStr "createCommandEncoder" n, "Command Encoder Creation"),
    (fun n => containsStr "wasm-to-js" (lower n), "WASM→JS Call"),
    (fun n => containsStr "js-to-wasm" (lower n), "JS→WASM Call"),
    (fun n => containsStr "submit" (lower n) && containsStr "wbg" n, "GPU Submit"),
    (fun n => containsStr "naga" (lower n), "Shader Compilation (Naga)") ]

/-- First-match-wins lookup in the spec's ordered pattern list. -/
def firstPatternMatch (n : String) : Option String :=
  (patternTable.find? (fun pc => pc.1 n)).map Prod.snd

/-! ## The active-time percentage of `print_report` (lines 292-311) -/

/-- The `Active time` percentage printed by `print_report` line 311:
`active_time_us/total_time_us*100` with
`total_time_us = sum(time_deltas) if time_deltas else 0` and
`active_time_us = total_time_us - (self idle + self program + self root)`.
Unlike every other percentage in the reporters this division carries no
`if total_time_us else 0` guard; the `ZeroDivisionError` Python raises when
`total_time_us == 0` is embedded as `none`. -/
def reportActivePct (nodes : List (Nat × Node)) (samples : List Nat)
    (time_deltas : List Nat) : Option Rat :=
  let analysis := analyze_samples nodes samples time_deltas
  let total_time_us := if time_deltas ≠ [] then time_deltas.sum else 0
  let idle_time_us := analysis.self_time "(idle)" + analysis.self_time "(program)"
      + analysis.self_time "(root)"
  let active_time_us : Int := (total_time_us : Int) - (idle_time_us : Int)
  if total_time_us = 0 then none
  else some ((active_time_us : Rat) / (total_time_us : Rat) * 100)

/-! ## WebGPU Inspector recording parser (`analyze-webgpu-inspector.py`)

The regex scans of `parse_webgpu_recording` are embedded as hand-rolled
matchers over `List Char`.  Each `re.finditer` is a left-to-right,
non-overlapping scan: try the pattern at the current position; on success
emit the match and resume after it, otherwise advance one character.  The
patterns involved are deterministic under Python's leftmost/greedy
backtracking semantics except for the `[^\x7d]*` gaps of the buffer and
pipeline patterns, whose greedy backtracking is embedded explicitly as a
longest-consumed-first candidate search (`nonBraceRests`). -/

/-- `int()` on a digit run (also accepts leading zeros). -/
def digitsToNat (ds : List Char) : Nat :=
  ds.foldl (fun acc c => acc * 10 + (c.toNat - 48)) 0

/-- Maximal (greedy) run of ASCII digits, with the remainder. -/
def takeDigits : List Char → List Char × List Char
  | [] => ([], [])
  | c :: cs =>
    if c.isDigit then
      let p := takeDigits cs
      (c :: p.1, p.2)
    else ([], c :: cs)

/-- Match a literal character sequence, returning the remainder. -/
def matchLit (lit s : List Char) : Option (List Char) :=
  match lit, s with
  | [], rest => some rest
  | _ :: _, [] => none
  | l :: ls, c :: cs => if c = l then matchLit ls cs else none

/-- Matcher for the frame-marker regex `D_F(\d+)_\d+` anchored at the head
of `s` (line 31): literal `D_F`, a nonempty greedy digit group, `_`, a
nonempty greedy digit run; yields the group value and the remainder after
the match. -/
def matchFrame (s : List Char) : Option (Nat × List Char) :=
  match matchLit "D_F".data s with
  | none => none
  | some r1 =>
    let p1 := takeDigits r1
    if p1.1 = [] then none
    else
      match p1.2 with
      | '_' :: r3 =>
        let p2 := takeDigits r3
        if p2.1 = [] then none else some (digitsToNat p1.1, p2.2)
      | _ => none

/-- `re.finditer` driver: fuelled left-to-right non-overlapping scan.  All
matchers used consume at least one character on success, so fuel
`s.length` is never exhausted before the input is. -/
def scanAll {α : Type} (m : List Char → Option (α × List Char)) :
    Nat → List Char → List α
  | 0, _ => []
  | _ + 1, [] => []
  | fuel + 1, c :: cs =>
    match m (c :: cs) with
    | some (x, rest) => x :: scanAll m fuel rest
    | none => scanAll m fuel cs

/-- All frame indices found by `re.findall(r'D_F(\d+)_\d+', content)`. -/
def scanFrames (s : List Char) : List Nat :=
  scanAll matchFrame s.length s

/-- `results['frame_count']` (lines 30-33): one plus the maximum found
frame index, `0` when no marker matched. -/
def frame_count (content : List Char) : Nat :=
  match scanFrames content with
  | [] => 0
  | m :: ms => ms.foldl Nat.max m + 1

/-- A record appended to `results['draws']`: either a direct draw (the
four captured integers of `\.draw\((\d+),(\d+),(\d+),(\d+)\)`) or an
indirect draw (the captured offset, tagged `'type': 'indirect'`). -/
inductive DrawRec where
  | direct (vertex_count instance_count first_vertex first_instance : Nat)
  | indirect (offset : Nat)
  deriving Repr, DecidableEq

/-- `'type' not in d` — the record is a direct draw. -/
def DrawRec.isDirect : DrawRec → Bool
  | .direct _ _ _ _ => true
  | .indirect _ => false

/-- `d['vertex_count']`; only ever applied to direct records. -/
def DrawRec.vertexCount : DrawRec → Nat
  | .direct v _ _ _ => v
  | .indirect _ => 0

/-- `d['instance_count']`; only ever applied to direct records. -/
def DrawRec.instanceCount : DrawRec → Nat
  | .direct _ i _ _ => i
  | .indirect _ => 0

/-- A nonempty greedy digit group followed by a literal `,`. -/
def matchNumComma (s : List Char) : Option (Nat × List Char) :=
  let p := takeDigits s
  if p.1 = [] then none
  else
    match p.2 with
    | ',' :: r => some (digitsToNat p.1, r)
    | _ => none

/-- A nonempty greedy digit group followed by a literal `)`. -/
def matchNumClose (s : List Char) : Option (Nat × List Char) :=
  let p := takeDigits s
  if p.1 = [] then none
  else
    match p.2 with
    | ')' :: r => some (digitsToNat p.1, r)
    | _ => none

/-- Matcher for `\.draw\((\d+),(\d+),(\d+),(\d+)\)` (line 36). -/
def matchDraw (s : List Char) : Option (DrawRec × List Char) :=
  match matchLit ".draw(".data s with
  | none => none
  | some r0 =>
    match matchNumComma r0 with
    | none => none
    | some (v, r1) =>
      match matchNumComma r1 with
      | none => none
      | some (i, r2) =>
        match matchNumComma r2 with
        | none => none
        | some (fv, r3) =>
          match matchNumClose r3 with
          | none => none
          | some (fi, r4) => some (DrawRec.direct v i fv fi, r4)

/-- Maximal run of non-comma characters, with the remainder. -/
def takeNonComma : List Char → List Char × List Char
  | [] => ([], [])
  | c :: cs =>
    if c = ',' then ([], c :: cs)
    else
      let p := takeNonComma cs
      (c :: p.1, p.2)

/-- Maximal run of whitespace (`\s*`), with the remainder. -/
def takeSpaces : List Char → List Char × List Char
  | [] => ([], [])
  | c :: cs =>
    if c.isWhitespace then
      let p := takeSpaces cs
      (c :: p.1, p.2)
    else ([], c :: cs)

/-- Matcher for `\.drawIndirect\([^,]+,\s*(\d+)\)` (line 46). -/
def matchDrawIndirect (s : List Char) : Option (DrawRec × List Char) :=
  match matchLit ".drawIndirect(".data s with
  | none => none
  | some r0 =>
    let p := takeNonComma r0
    if p.1 = [] then none
    else
      match p.2 with
      | ',' :: r1 =>
        let sp := takeSpaces r1
        match matchNumClose sp.2 with
        | none => none
        | some (off, r2) => some (DrawRec.indirect off, r2)
      | _ => none

/-- A record appended to `results['dispatches']` (lines 54-61). -/
structure DispatchRec where
  x : Nat
  y : Nat
  z : Nat
  total_workgroups : Nat
  deriving Repr, DecidableEq

/-- Matcher for `\.dispatchWorkgroups\((\d+),(\d+),(\d+)\)` (line 54). -/
def matchDispatch (s : List Char) : Option (DispatchRec × List Char) :=
  match matchLit ".dispatchWorkgroups(".data s with
  | none => none
  | some r0 =>
    match matchNumComma r0 with
    | none => none
    | some (x, r1) =>
      match matchNumComma r1 with
      | none => none
      | some (y, r2) =>
        match matchNumClose r2 with
        | none => none
        | some (z, r3) => some (⟨x, y, z, x * y * z⟩, r3)

/-- A record appended to `results['buffers']` (lines 63-77). -/
structure BufferRec where
  size : Nat
  label : String
  deriving Repr, DecidableEq

/-- A record appended to `results['pipelines']` (lines 79-85). -/
structure PipelineRec where
  kind : String
  label : String
  deriving Repr, DecidableEq

/-- All suffixes of `s` reachable by consuming a (possibly empty) run of
non-`\x7d` characters, longest consumed first — the candidate resume
points of a greedy `[^\x7d]*`, in backtracking order. -/
def nonBraceRests : List Char → List (List Char)
  | [] => [[]]
  | c :: cs =>
    if c.toNat = 125 then [c :: cs]
    else nonBraceRests cs ++ [c :: cs]

/-- Maximal run of non-quote characters, with the remainder. -/
def takeNonQuote : List Char → List Char × List Char
  | [] => ([], [])
  | c :: cs =>
    if c = '\"' then ([], c :: cs)
    else
      let p := takeNonQuote cs
      (c :: p.1, p.2)

/-- The group part `"label":"([^"]*)"`: literal, then a greedy non-quote
run, then the closing quote; yields the captured label. -/
def matchLabelGroup (s : List Char) : Option (String × List Char) :=
  match matchLit "\"label\":\"".data s with
  | none => none
  | some r0 =>
    let p := takeNonQuote r0
    match p.2 with
    | '\"' :: r1 => some (String.mk p.1, r1)
    | _ => none

/-- The group part `"size":(\d+)`: literal then a nonempty greedy digit
group. -/
def matchSizeGroup (s : List Char) : Option (Nat × List Char) :=
  match matchLit "\"size\":".data s with
  | none => none
  | some r0 =>
    let p := takeDigits r0
    if p.1 = [] then none else some (digitsToNat p.1, p.2)

/-- Matcher for the first buffer pattern
`createBuffer\(\{[^\x7d]*"size":(\d+)[^\x7d]*"label":"([^"]*)"` (line 64):
each greedy gap is searched longest-first; the digit group is taken
maximally (a shorter digit split cannot rescue a failing continuation,
since no later literal can begin inside a digit run). -/
def matchBuffer1 (s : List Char) : Option (BufferRec × List Char) :=
  match matchLit "createBuffer(\x7b".data s with
  | none => none
  | some r0 =>
    (nonBraceRests r0).findSome? (fun r1 =>
      match matchSizeGroup r1 with
      | none => none
      | some (sz, r2) =>
        (nonBraceRests r2).findSome? (fun r3 =>
          match matchLabelGroup r3 with
          | none => none
          | some (lab, r4) => some (⟨sz, lab⟩, r4)))

/-- Matcher for the second buffer pattern
`createBuffer\(\{[^\x7d]*"label":"([^"]*)"[^\x7d]*"size":(\d+)` (line 72). -/
def matchBuffer2 (s : List Char) : Option (BufferRec × List Char) :=
  match matchLit "createBuffer(\x7b".data s with
  | none => none
  | some r0 =>
    (nonBraceRests r0).findSome? (fun r1 =>
      match matchLabelGroup r1 with
      | none => none
      | some (lab, r2) =>
        (nonBraceRests r2).findSome? (fun r3 =>
          match matchSizeGroup r3 with
          | none => none
          | some (sz, r4) => some (⟨sz, lab⟩, r4)))

/-- Matcher for `create(Compute|Render)Pipeline\(\{[^\x7d]*"label":"([^"]*)"`
(line 80); the stored kind is `match.group(1).lower()`. -/
def matchPipeline (s : List Char) : Option (PipelineRec × List Char) :=
  match matchLit "create".data s with
  | none => none
  | some r0 =>
    let kindRest : Option (String × List Char) :=
      match matchLit "Compute".data r0 with
      | some r1 => some ("Compute", r1)
      | none =>
        match matchLit "Render".data r0 with
        | some r1 => some ("Render", r1)
        | none => none
    match kindRest with
    | none => none
    | some (kind, r1) =>
      match matchLit "Pipeline(\x7b".data r1 with
      | none => none
      | some r2 =>
        (nonBraceRests r2).findSome? (fun r3 =>
          match matchLabelGroup r3 with
          | none => none
          | some (lab, r4) => some (⟨lower kind, lab⟩, r4))

/-- The extracted record lists of `parse_webgpu_recording` (lines 15-88),
except the derived `summary` (computed by `compute_summary` below).  The
two buffer scans append to the same list, first all pattern-1 matches then
all pattern-2 matches. -/
structure Results where
  draws : List DrawRec
  dispatches : List DispatchRec
  buffers : List BufferRec
  pipelines : List PipelineRec
  frame_count : Nat
  deriving Repr, DecidableEq

/-- `parse_webgpu_recording` without its `summary` field. -/
def parse_webgpu_recording (content : List Char) : Results :=
  { draws := scanAll matchDraw content.length content
      ++ scanAll matchDrawIndirect content.length content,
    dispatches := scanAll matchDispatch content.length content,
    buffers := scanAll matchBuffer1 content.length content
      ++ scanAll matchBuffer2 content.length content,
    pipelines := scanAll matchPipeline content.length content,
    frame_count := frame_count content }

/-- The summary dict of `compute_summary` (lines 93-144): each key is an
`Option` field, `none` when the corresponding Python key is absent. -/
structure Summary where
  draw_calls : Option Nat := none
  direct_draws : Option Nat := none
  indirect_draws : Option Nat := none
  total_vertices_drawn : Option Nat := none
  total_instances : Option Nat := none
  draws_per_frame : Option Rat := none
  instances_per_frame : Option Rat := none
  dispatch_calls : Option Nat := none
  dispatch_types : Option (List (String × Nat)) := none
  dispatches_per_frame : Option Rat := none
  buffer_count : Option Nat := none
  total_buffer_memory : Option Nat := none
  buffers : Option (List (String × Nat)) := none
  deriving Repr, DecidableEq

/-- One `defaultdict(int)` increment on an insertion-ordered histogram. -/
def histAdd (h : List (String × Nat)) (k : String) : List (String × Nat) :=
  if h.any (fun p => p.1 = k) then
    h.map (fun p => if p.1 = k then (p.1, p.2 + 1) else p)
  else h ++ [(k, 1)]

/-- Insertion-ordered counting histogram of a key list. -/
def histogram (keys : List String) : List (String × Nat) :=
  keys.foldl histAdd []

/-- The dispatch-shape key `f"{d['x']}x{d['y']}x{d['z']}"` (line 125). -/
def dispatchKey (d : DispatchRec) : String :=
  Nat.repr d.x ++ "x" ++ Nat.repr d.y ++ "x" ++ Nat.repr d.z

/-- The buffer dedup loop of `compute_summary` (lines 135-138): an
insertion-ordered dict keyed by label, first occurrence wins. -/
def dedupBuffersGo : List BufferRec → List String → List (String × Nat)
  | [], _ => []
  | b :: rest, seen =>
    if b.label ∈ seen then dedupBuffersGo rest seen
    else (b.label, b.size) :: dedupBuffersGo rest (b.label :: seen)

/-- `unique_buffers` of `compute_summary`. -/
def dedupBuffers (bs : List BufferRec) : List (String × Nat) :=
  dedupBuffersGo bs []

/-- `compute_summary(results)` (lines 93-144). -/
def compute_summary (r : Results) : Summary :=
  let s0 : Summary := {}
  let s1 :=
    if r.draws = [] then s0
    else
      let direct := r.draws.filter (fun d => d.isDirect)
      let indirect := r.draws.filter (fun d => !d.isDirect)
      let s := { s0 with draw_calls := some r.draws.length,
                         direct_draws := some direct.length,
                         indirect_draws := some indirect.length }
      if direct = [] then s
      else
        let total_vertices := (direct.map (fun d => d.vertexCount * d.instanceCount)).sum
        let total_instances := (direct.map (fun d => d.instanceCount)).sum
        let s := { s with total_vertices_drawn := some total_vertices,
                          total_instances := some total_instances }
        if 0 < r.frame_count then
          { s with
            draws_per_frame := some ((direct.length : Rat) / (r.frame_count : Rat)),
            instances_per_frame := some ((total_instances : Rat) / (r.frame_count : Rat)) }
        else s
  let s2 :=
    if r.dispatches = [] then s1
    else
      let s := { s1 with dispatch_calls := some r.dispatches.length,
                         dispatch_types := some (histogram (r.dispatches.map dispatchKey)) }
      if 0 < r.frame_count then
        { s with
          dispatches_per_frame := some ((r.dispatches.length : Rat) / (r.frame_count : Rat)) }
      else s
  if r.buffers = [] then s2
  else
    let uniq := dedupBuffers r.buffers
    { s2 with buffer_count := some uniq.length,
              total_buffer_memory := some ((uniq.map Prod.snd).sum),
              buffers := some uniq }

/-- The draw-configuration key
`f"vertices={d['vertex_count']}, instances={d['instance_count']}"` of
`print_report` (line 180). -/
def drawConfigKey (d : DrawRec) : String :=
  "vertices=" ++ Nat.repr d.vertexCount ++ ", instances=" ++ Nat.repr d.instanceCount

/-- The `draw_configs` histogram of `print_report` (lines 178-181), built
over the direct draws. -/
def draw_configs (draws : List DrawRec) : List (String × Nat) :=
  histogram ((draws.filter (fun d => d.isDirect)).map drawConfigKey)

/-! ## Spec-side definitions -/

/-- Spec-side reading of a frame marker: frame index `n` occurs in a
`D_F<n>_<m>` marker somewhere in `s` — some position is followed by the
literal `D_F`, a nonempty digit run with value `n`, an underscore and at
least one further digit. -/
def markerAt (s : List Char) (n : Nat) : Prop :=
  ∃ pre ds1 ds2 post,
    s = pre ++ 'D' :: '_' :: 'F' :: (ds1 ++ '_' :: (ds2 ++ post)) ∧
    ds1 ≠ [] ∧ (∀ c ∈ ds1, c.isDigit = true) ∧
    ds2 ≠ [] ∧ (∀ c ∈ ds2, c.isDigit = true) ∧
    digitsToNat ds1 = n

/-- Spec-side reading of the buffer dedup rule: the size of the
first-encountered record carrying a given label (`0` for an absent
label). -/
def firstSeenSize (bs : List BufferRec) (l : String) : Nat :=
  match bs.find? (fun b => b.label == l) with
  | some b => b.size
  | none => 0

/-! ## Stack-reconstruction lemmas -/

example : get_full_stack [(1, mkNode "f" none)] 1 = [(1, "f")] := by
  simp [get_full_stack, stackLoop, dictGet, mkNode, List.find?]

example : get_full_stack [(1, mkNode "f" (some 2)), (2, mkNode "g" none)] 1
    = [(1, "f"), (2, "g")] := by
  simp [get_full_stack, stackLoop, dictGet, mkNode, List.find?]

example : get_full_stack [(1, mkNode "f" (some 1))] 1 = [(1, "f")] := by
  simp [get_full_stack, stackLoop, dictGet, mkNode, List.find?]


theorem stackLoop_none (nodes : List (Nat × Node)) (visited : List Nat) :
    stackLoop nodes none visited = [] := by
  rw [stackLoop]

theorem stackLoop_zero (nodes : List (Nat × Node)) (visited : List Nat) :
    stackLoop nodes (some 0) visited = [] := by
  rw [stackLoop]
  simp

theorem stackLoop_visited {c : Nat} {visited : List Nat}
    (nodes : List (Nat × Node)) (h : c ∈ visited) :
    stackLoop nodes (some c) visited = [] := by
  rw [stackLoop]
  by_cases hc : c = 0
  · simp [hc]
  · simp [hc, h]

theorem stackLoop_missing {c : Nat} {visited : List Nat}
    {nodes : List (Nat × Node)} (hc : c ≠ 0) (hv : c ∉ visited)
    (hn : dictGet nodes c = none) :
    stackLoop nodes (some c) visited = [] := by
  rw [stackLoop]
  simp only [if_neg hc, dif_neg hv]
  split
  · rfl
  · next node heq => rw [hn] at heq; cases heq

theorem stackLoop_step {c : Nat} {visited : List Nat}
    {nodes : List (Nat × Node)} {node : Node} (hc : c ≠ 0) (hv : c ∉ visited)
    (hn : dictGet nodes c = some node) :
    stackLoop nodes (some c) visited
      = (c, node.functionName) :: stackLoop nodes node.parent (c :: visited) := by
  rw [stackLoop]
  simp only [if_neg hc, dif_neg hv]
  split
  · next heq => rw [hn] at heq; cases heq
  · next node' heq =>
    rw [hn] at heq
    cases heq
    rfl

/-- Every id on the reconstructed stack is fresh relative to the visited
set, and the ids on the stack are pairwise distinct. -/
theorem stackLoop_ids (nodes : List (Nat × Node)) (current : Option Nat)
    (visited : List Nat) :
    (∀ p ∈ stackLoop nodes current visited, p.1 ∉ visited) ∧
    ((stackLoop nodes current visited).map Prod.fst).Nodup := by
  match current with
  | none => simp [stackLoop_none]
  | some c =>
    by_cases hc : c = 0
    · subst hc; simp [stackLoop_zero]
    by_cases hv : c ∈ visited
    · simp [stackLoop_visited nodes hv]
    match hn : dictGet nodes c with
    | none => simp [stackLoop_missing hc hv hn]
    | some node =>
      have ih := stackLoop_ids nodes node.parent (c :: visited)
      rw [stackLoop_step hc hv hn]
      constructor
      · intro p hp
        rcases List.mem_cons.1 hp with h | h
        · subst h; exact hv
        · intro hmem
          exact (ih.1 p h) (List.mem_cons_of_mem c hmem)
      · rw [List.map_cons, List.nodup_cons]
        refine ⟨?_, ih.2⟩
        intro hmem
        rcases List.mem_map.1 hmem with ⟨p, hp, hfst⟩
        exact (ih.1 p hp) (hfst ▸ List.mem_cons_self c visited)
termination_by ((nodes.map Prod.fst).toFinset \ visited.toFinset).card
decreasing_by
  have hck : c ∈ (nodes.map Prod.fst).toFinset := List.mem_toFinset.2 (dictGet_mem hn)
  have hins : (c :: visited).toFinset = insert c visited.toFinset := List.toFinset_cons
  rw [hins, Finset.sdiff_insert]
  exact Finset.card_erase_lt_of_mem
    (Finset.mem_sdiff.2 ⟨hck, fun h => hv (List.mem_toFinset.1 h)⟩)

/-- The reconstructed stack is never longer than the number of distinct
node-table keys not yet visited. -/
theorem stackLoop_length (nodes : List (Nat × Node)) (current : Option Nat)
    (visited : List Nat) :
    (stackLoop nodes current visited).length
      ≤ ((nodes.map Prod.fst).toFinset \ visited.toFinset).card := by
  match current with
  | none => simp [stackLoop_none]
  | some c =>
    by_cases hc : c = 0
    · subst hc; simp [stackLoop_zero]
    by_cases hv : c ∈ visited
    · simp [stackLoop_visited nodes hv]
    match hn : dictGet nodes c with
    | none => simp [stackLoop_missing hc hv hn]
    | some node =>
      have ih := stackLoop_length nodes node.parent (c :: visited)
      rw [stackLoop_step hc hv hn]
      have hck : c ∈ (nodes.map Prod.fst).toFinset :=
        List.mem_toFinset.2 (dictGet_mem hn)
      have hmem : c ∈ (nodes.map Prod.fst).toFinset \ visited.toFinset :=
        Finset.mem_sdiff.2 ⟨hck, fun h => hv (List.mem_toFinset.1 h)⟩
      have hins : (c :: visited).toFinset = insert c visited.toFinset :=
        List.toFinset_cons
      rw [hins, Finset.sdiff_insert] at ih
      calc ((c, node.functionName) :: stackLoop nodes node.parent (c :: visited)).length
          = (stackLoop nodes node.parent (c :: visited)).length + 1 := by
            simp [List.length_cons]
        _ ≤ (((nodes.map Prod.fst).toFinset \ visited.toFinset).erase c).card + 1 :=
            Nat.add_le_add_right ih 1
        _ = ((nodes.map Prod.fst).toFinset \ visited.toFinset).card := by
            rw [Finset.card_erase_of_mem hmem]
            exact Nat.succ_pred_eq_of_pos (Finset.card_pos.2 ⟨c, hmem⟩)
termination_by ((nodes.map Prod.fst).toFinset \ visited.toFinset).card
decreasing_by
  have hck : c ∈ (nodes.map Prod.fst).toFinset := List.mem_toFinset.2 (dictGet_mem hn)
  have hins : (c :: visited).toFinset = insert c visited.toFinset := List.toFinset_cons
  rw [hins, Finset.sdiff_insert]
  exact Finset.card_erase_lt_of_mem
    (Finset.mem_sdiff.2 ⟨hck, fun h => hv (List.mem_toFinset.1 h)⟩)

/-! ## Aggregator lemmas -/



/-- The call-tree part of one `totalLoop` iteration, as a standalone
function of the remaining stack (`stack[j+1]` is `rest.head?`). -/
def edgeStep (b : Analysis) (name : String) (rest : List (Nat × String)) :
    Analysis :=
  match rest with
  | [] => b
  | (_, pname) :: _ => { b with call_tree := bumpEdge b.call_tree pname name }

theorem edgeStep_self_time (b : Analysis) (name : String)
    (rest : List (Nat × String)) : (edgeStep b name rest).self_time = b.self_time := by
  cases rest with
  | nil => rfl
  | cons hd tl => obtain ⟨x, y⟩ := hd; rfl

theorem edgeStep_self_samples (b : Analysis) (name : String)
    (rest : List (Nat × String)) :
    (edgeStep b name rest).self_samples = b.self_samples := by
  cases rest with
  | nil => rfl
  | cons hd tl => obtain ⟨x, y⟩ := hd; rfl

theorem edgeStep_total_time (b : Analysis) (name : String)
    (rest : List (Nat × String)) :
    (edgeStep b name rest).total_time = b.total_time := by
  cases rest with
  | nil => rfl
  | cons hd tl => obtain ⟨x, y⟩ := hd; rfl

theorem edgeStep_total_samples (b : Analysis) (name : String)
    (rest : List (Nat × String)) :
    (edgeStep b name rest).total_samples = b.total_samples := by
  cases rest with
  | nil => rfl
  | cons hd tl => obtain ⟨x, y⟩ := hd; rfl

theorem totalLoop_step_seen (delta : Nat) (a : Analysis) (nid : Nat)
    (name : String) (rest : List (Nat × String)) (seen : List String)
    (hs : name ∈ seen) :
    totalLoop delta a ((nid, name) :: rest) seen
      = totalLoop delta (edgeStep a name rest) rest seen := by
  cases rest with
  | nil =>
    conv_lhs => rw [totalLoop]
    simp [hs, edgeStep, totalLoop]
  | cons hd tl =>
    obtain ⟨x, y⟩ := hd
    conv_lhs => rw [totalLoop]
    simp [hs, edgeStep]

theorem totalLoop_step_new (delta : Nat) (a : Analysis) (nid : Nat)
    (name : String) (rest : List (Nat × String)) (seen : List String)
    (hs : name ∉ seen) :
    totalLoop delta a ((nid, name) :: rest) seen
      = totalLoop delta
          (edgeStep { a with total_samples := bump a.total_samples name 1,
                             total_time := bump a.total_time name delta }
            name rest)
          rest (name :: seen) := by
  cases rest with
  | nil =>
    conv_lhs => rw [totalLoop]
    simp [hs, edgeStep, totalLoop]
  | cons hd tl =>
    obtain ⟨x, y⟩ := hd
    conv_lhs => rw [totalLoop]
    simp [hs, edgeStep]

theorem totalLoop_self_time (delta : Nat) (stack : List (Nat × String)) :
    ∀ (a : Analysis) (seen : List String),
      (totalLoop delta a stack seen).self_time = a.self_time := by
  induction stack with
  | nil => intro a seen; rw [totalLoop]
  | cons hd rest ih =>
    intro a seen
    obtain ⟨nid, name⟩ := hd
    by_cases hs : name ∈ seen
    · rw [totalLoop_step_seen delta a nid name rest seen hs, ih, edgeStep_self_time]
    · rw [totalLoop_step_new delta a nid name rest seen hs, ih, edgeStep_self_time]

theorem totalLoop_self_samples (delta : Nat) (stack : List (Nat × String)) :
    ∀ (a : Analysis) (seen : List String),
      (totalLoop delta a stack seen).self_samples = a.self_samples := by
  induction stack with
  | nil => intro a seen; rw [totalLoop]
  | cons hd rest ih =>
    intro a seen
    obtain ⟨nid, name⟩ := hd
    by_cases hs : name ∈ seen
    · rw [totalLoop_step_seen delta a nid name rest seen hs, ih, edgeStep_self_samples]
    · rw [totalLoop_step_new delta a nid name rest seen hs, ih, edgeStep_self_samples]

/-- Membership bookkeeping for the `seen` set. -/
theorem seen_shift {s name : String} {names : List String} {seen : List String}
    (hsn : s ≠ name) :
    (s ∈ names ∧ s ∉ name :: seen) ↔ (s ∈ name :: names ∧ s ∉ seen) := by
  simp only [List.mem_cons]
  constructor
  · rintro ⟨h1, h2⟩
    exact ⟨Or.inr h1, fun h => h2 (Or.inr h)⟩
  · rintro ⟨h1 | h1, h2⟩
    · exact absurd h1 hsn
    · refine ⟨h1, fun h => ?_⟩
      rcases h with h' | h'
      · exact hsn h'
      · exact h2 h'

theorem seen_dup {s name : String} {names : List String} {seen : List String}
    (hs : name ∈ seen) :
    (s ∈ name :: names ∧ s ∉ seen) ↔ (s ∈ names ∧ s ∉ seen) := by
  simp only [List.mem_cons]
  constructor
  · rintro ⟨h1 | h1, h2⟩
    · exact absurd (h1 ▸ hs) h2
    · exact ⟨h1, h2⟩
  · rintro ⟨h1, h2⟩
    exact ⟨Or.inr h1, h2⟩

/-- Pointwise behaviour of the distinct-name loop on `total_time`: a name
gains exactly one `delta` if it occurs in the stack and is not yet seen,
and is untouched otherwise — multiplicity in the stack is irrelevant. -/
theorem totalLoop_total_time (delta : Nat) (stack : List (Nat × String)) :
    ∀ (a : Analysis) (seen : List String) (s : String),
      (totalLoop delta a stack seen).total_time s =
        if s ∈ stack.map Prod.snd ∧ s ∉ seen then a.total_time s + delta
        else a.total_time s := by
  induction stack with
  | nil => intro a seen s; rw [totalLoop]; simp
  | cons hd rest ih =>
    intro a seen s
    obtain ⟨nid, name⟩ := hd
    simp only [List.map_cons]
    by_cases hs : name ∈ seen
    · rw [totalLoop_step_seen delta a nid name rest seen hs, ih _ _ s,
        edgeStep_total_time]
      simp only [seen_dup hs]
    · rw [totalLoop_step_new delta a nid name rest seen hs, ih _ _ s,
        edgeStep_total_time]
      by_cases hsn : s = name
      · subst hsn
        simp [bump, hs]
      · simp only [seen_shift hsn]
        simp [bump, hsn]

/-- Same, for the per-name total sample counts (increment 1). -/
theorem totalLoop_total_samples (delta : Nat) (stack : List (Nat × String)) :
    ∀ (a : Analysis) (seen : List String) (s : String),
      (totalLoop delta a stack seen).total_samples s =
        if s ∈ stack.map Prod.snd ∧ s ∉ seen then a.total_samples s + 1
        else a.total_samples s := by
  induction stack with
  | nil => intro a seen s; rw [totalLoop]; simp
  | cons hd rest ih =>
    intro a seen s
    obtain ⟨nid, name⟩ := hd
    simp only [List.map_cons]
    by_cases hs : name ∈ seen
    · rw [totalLoop_step_seen delta a nid name rest seen hs, ih _ _ s,
        edgeStep_total_samples]
      simp only [seen_dup hs]
    · rw [totalLoop_step_new delta a nid name rest seen hs, ih _ _ s,
        edgeStep_total_samples]
      by_cases hsn : s = name
      · subst hsn
        simp [bump, hs]
      · simp only [seen_shift hsn]
        simp [bump, hsn]


/-! ## Per-sample lemmas -/

theorem processSample_eq_nil (nodes : List (Nat × Node)) (a : Analysis)
    (node_id delta : Nat) (h : get_full_stack nodes node_id = []) :
    processSample nodes a node_id delta = a := by
  unfold processSample
  rw [h]

theorem processSample_eq_cons (nodes : List (Nat × Node)) (a : Analysis)
    (node_id delta leaf_id : Nat) (leaf_name : String)
    (rest : List (Nat × String))
    (h : get_full_stack nodes node_id = (leaf_id, leaf_name) :: rest) :
    processSample nodes a node_id delta
      = totalLoop delta
          { a with self_samples := bump a.self_samples leaf_name 1,
                   self_time := bump a.self_time leaf_name delta }
          ((leaf_id, leaf_name) :: rest) [] := by
  unfold processSample
  rw [h]

/-- Processing one sample preserves the pointwise `self ≤ total` invariant
on both the time and the sample-count maps. -/
theorem processSample_le (nodes : List (Nat × Node)) (a : Analysis)
    (node_id delta : Nat)
    (hle : ∀ s, a.self_time s ≤ a.total_time s ∧
      a.self_samples s ≤ a.total_samples s) :
    ∀ s, (processSample nodes a node_id delta).self_time s
        ≤ (processSample nodes a node_id delta).total_time s ∧
      (processSample nodes a node_id delta).self_samples s
        ≤ (processSample nodes a node_id delta).total_samples s := by
  intro s
  cases hstack : get_full_stack nodes node_id with
  | nil => rw [processSample_eq_nil nodes a node_id delta hstack]; exact hle s
  | cons hd rest =>
    obtain ⟨leaf_id, leaf_name⟩ := hd
    rw [processSample_eq_cons nodes a node_id delta leaf_id leaf_name rest hstack]
    rw [totalLoop_self_time, totalLoop_self_samples, totalLoop_total_time,
      totalLoop_total_samples]
    dsimp only
    simp only [List.not_mem_nil, not_false_iff, and_true]
    by_cases hsn : s = leaf_name
    · subst hsn
      rw [if_pos (by simp), if_pos (by simp)]
      constructor
      · simpa [bump] using Nat.add_le_add_right (hle s).1 delta
      · simpa [bump] using Nat.add_le_add_right (hle s).2 1
    · have hself_t : bump a.self_time leaf_name delta s = a.self_time s := by
        simp [bump, hsn]
      have hself_s : bump a.self_samples leaf_name 1 s = a.self_samples s := by
        simp [bump, hsn]
      rw [hself_t, hself_s]
      by_cases hc : s ∈ ((leaf_id, leaf_name) :: rest).map Prod.snd
      · rw [if_pos hc, if_pos hc]
        exact ⟨le_trans (hle s).1 (Nat.le_add_right _ _),
          le_trans (hle s).2 (Nat.le_add_right _ _)⟩
      · rw [if_neg hc, if_neg hc]
        exact hle s

/-- A pointwise invariant preserved by every fold step is preserved by the
whole fold. -/
theorem foldl_preserve {β : Type} (P : Analysis → Prop)
    (f : Analysis → β → Analysis) (hf : ∀ a x, P a → P (f a x)) :
    ∀ (l : List β) (a : Analysis), P a → P (l.foldl f a) := by
  intro l
  induction l with
  | nil => intro a h; exact h
  | cons x xs ih => intro a h; exact ih _ (hf a x h)

/-! ## Frame-scan lemmas (for the frame-count claim) -/

theorem matchLit_sound : ∀ (lit s r : List Char),
    matchLit lit s = some r → s = lit ++ r := by
  intro lit
  induction lit with
  | nil => intro s r h; simp [matchLit] at h; simp [h]
  | cons l ls ih =>
    intro s r h
    cases s with
    | nil => simp [matchLit] at h
    | cons c cs =>
      rw [matchLit] at h
      by_cases hc : c = l
      · rw [if_pos hc] at h
        subst hc
        rw [List.cons_append]
        rw [ih cs r h]
      · rw [if_neg hc] at h; cases h

theorem matchLit_complete : ∀ (lit r : List Char), matchLit lit (lit ++ r) = some r := by
  intro lit
  induction lit with
  | nil => intro r; rfl
  | cons l ls ih => intro r; simp [matchLit, ih]

theorem takeDigits_spec : ∀ (s : List Char),
    s = (takeDigits s).1 ++ (takeDigits s).2 ∧
    (∀ c ∈ (takeDigits s).1, c.isDigit = true) ∧
    (∀ c, (takeDigits s).2.head? = some c → c.isDigit = false) := by
  intro s
  induction s with
  | nil => simp [takeDigits]
  | cons c cs ih =>
    by_cases hc : c.isDigit
    · rw [takeDigits, if_pos hc]
      refine ⟨?_, ?_, ?_⟩
      · simpa using ih.1
      · intro d hd
        rcases List.mem_cons.1 hd with h | h
        · exact h ▸ hc
        · exact ih.2.1 d h
      · exact ih.2.2
    · rw [takeDigits, if_neg hc]
      refine ⟨rfl, by simp, ?_⟩
      intro d hd
      simp only [List.head?] at hd
      cases hd
      simpa using hc

theorem takeDigits_exact : ∀ (ds rest : List Char),
    (∀ c ∈ ds, c.isDigit = true) →
    (∀ c, rest.head? = some c → c.isDigit = false) →
    takeDigits (ds ++ rest) = (ds, rest) := by
  intro ds
  induction ds with
  | nil =>
    intro rest _ hrest
    cases rest with
    | nil => rfl
    | cons c cs =>
      rw [List.nil_append, takeDigits,
        if_neg (by simpa using (hrest c rfl))]
  | cons d ds ih =>
    intro rest hds hrest
    rw [List.cons_append, takeDigits, if_pos (hds d (List.mem_cons_self d ds)),
      ih rest (fun c hc => hds c (List.mem_cons_of_mem d hc)) hrest]

/-- Soundness of the frame matcher: a successful match decomposes the
input as a `D_F<n>_<m>` marker at position 0 followed by the remainder. -/
theorem matchFrame_sound {s : List Char} {n : Nat} {rest : List Char}
    (h : matchFrame s = some (n, rest)) :
    ∃ ds1 ds2, s = 'D' :: '_' :: 'F' :: (ds1 ++ '_' :: (ds2 ++ rest)) ∧
      ds1 ≠ [] ∧ (∀ c ∈ ds1, c.isDigit = true) ∧
      ds2 ≠ [] ∧ (∀ c ∈ ds2, c.isDigit = true) ∧
      digitsToNat ds1 = n := by
  unfold matchFrame at h
  cases hl : matchLit "D_F".data s with
  | none => rw [hl] at h; cases h
  | some r1 =>
    rw [hl] at h
    dsimp only at h
    by_cases h1 : (takeDigits r1).1 = []
    · rw [if_pos h1] at h; cases h
    rw [if_neg h1] at h
    split at h
    · rename_i r3 heq
      by_cases h2 : (takeDigits r3).1 = []
      · rw [if_pos h2] at h; cases h
      rw [if_neg h2] at h
      have hn : digitsToNat (takeDigits r1).1 = n := congrArg Prod.fst (Option.some.inj h)
      have hrest : (takeDigits r3).2 = rest := congrArg Prod.snd (Option.some.inj h)
      refine ⟨(takeDigits r1).1, (takeDigits r3).1, ?_, h1, (takeDigits_spec r1).2.1, h2,
        (takeDigits_spec r3).2.1, hn⟩
      have hs : s = "D_F".data ++ r1 := matchLit_sound _ _ _ hl
      have hr1 : r1 = (takeDigits r1).1 ++ '_' :: r3 := by
        have := (takeDigits_spec r1).1
        rw [heq] at this
        exact this
      have hr3 : r3 = (takeDigits r3).1 ++ rest := by
        have := (takeDigits_spec r3).1
        rw [hrest] at this
        exact this
      conv_lhs => rw [hs, hr1, hr3]
      rfl
    · cases h

/-- Completeness of the frame matcher: a `D_F<n>_<m>` marker at position 0
is matched, with the group value determined by the digit run before the
second underscore. -/
theorem matchFrame_complete (ds1 ds2 post : List Char)
    (h1 : ds1 ≠ []) (hd1 : ∀ c ∈ ds1, c.isDigit = true)
    (h2 : ds2 ≠ []) (hd2 : ∀ c ∈ ds2, c.isDigit = true) :
    ∃ rest, matchFrame ('D' :: '_' :: 'F' :: (ds1 ++ '_' :: (ds2 ++ post)))
      = some (digitsToNat ds1, rest) := by
  cases ds2 with
  | nil => exact absurd rfl h2
  | cons d2 ds2t =>
    have hd2' : d2.isDigit = true := hd2 d2 (List.mem_cons_self d2 ds2t)
    have htd : takeDigits (ds1 ++ '_' :: ((d2 :: ds2t) ++ post))
        = (ds1, '_' :: ((d2 :: ds2t) ++ post)) := by
      refine takeDigits_exact ds1 _ hd1 ?_
      intro c hc
      simp only [List.head?] at hc
      cases hc
      decide
    have hne : (takeDigits ((d2 :: ds2t) ++ post)).1 ≠ [] := by
      rw [List.cons_append, takeDigits, if_pos hd2']
      simp
    refine ⟨(takeDigits ((d2 :: ds2t) ++ post)).2, ?_⟩
    have hshape : ('D' :: '_' :: 'F' :: (ds1 ++ '_' :: ((d2 :: ds2t) ++ post)))
        = "D_F".data ++ (ds1 ++ '_' :: ((d2 :: ds2t) ++ post)) := rfl
    simp only [hshape, matchFrame, matchLit_complete, htd, if_neg h1, if_neg hne]

/-- A successful frame match consumes at least one character. -/
theorem matchFrame_lt {s : List Char} {n : Nat} {rest : List Char}
    (h : matchFrame s = some (n, rest)) : rest.length < s.length := by
  obtain ⟨ds1, ds2, hs, h1, _, h2, _, _⟩ := matchFrame_sound h
  rw [hs]
  simp [List.length_append]
  omega

theorem markerAt_length {s : List Char} {n : Nat} (h : markerAt s n) :
    6 ≤ s.length := by
  obtain ⟨pre, ds1, ds2, post, hs, h1, _, h2, _, _⟩ := h
  rw [hs]
  have l1 : 1 ≤ ds1.length := List.length_pos.2 h1
  have l2 : 1 ≤ ds2.length := List.length_pos.2 h2
  simp [List.length_append]
  omega

theorem markerAt_append_left (t : List Char) {s : List Char} {n : Nat}
    (h : markerAt s n) : markerAt (t ++ s) n := by
  obtain ⟨pre, ds1, ds2, post, hs, h1, hdig1, h2, hdig2, hn⟩ := h
  exact ⟨t ++ pre, ds1, ds2, post, by rw [hs, List.append_assoc], h1, hdig1, h2, hdig2, hn⟩

/-- No `D` occurs after position 0 inside a matched marker. -/
theorem noD_in_markerTail {ds1 ds2 : List Char}
    (hd1 : ∀ c ∈ ds1, c.isDigit = true) (hd2 : ∀ c ∈ ds2, c.isDigit = true) :
    'D' ∉ ('_' :: 'F' :: (ds1 ++ '_' :: ds2)) := by
  intro h
  rcases List.mem_cons.1 h with h | h
  · exact absurd h (by decide)
  rcases List.mem_cons.1 h with h | h
  · exact absurd h (by decide)
  rcases List.mem_append.1 h with h | h
  · have := hd1 _ h
    exact absurd this (by decide)
  · rcases List.mem_cons.1 h with h | h
    · exact absurd h (by decide)
    · have := hd2 _ h
      exact absurd this (by decide)

/-- The fuelled frame scan finds exactly the marker indices of the input:
soundness because every match decomposes the input, completeness because a
marker cannot begin strictly inside a matched marker (no `D` occurs there),
so left-to-right non-overlapping scanning skips no marker. -/
theorem scanAll_frame_mem : ∀ (fuel : Nat) (s : List Char), s.length ≤ fuel →
    ∀ n : Nat, (n ∈ scanAll matchFrame fuel s ↔ markerAt s n) := by
  intro fuel
  induction fuel with
  | zero =>
    intro s hlen n
    have hs : s = [] := List.length_eq_zero.1 (Nat.le_zero.1 hlen)
    subst hs
    rw [scanAll]
    constructor
    · intro h; exact absurd h (List.not_mem_nil n)
    · intro h
      have := markerAt_length h
      simp at this
  | succ fuel ih =>
    intro s hlen n
    cases s with
    | nil =>
      rw [scanAll]
      constructor
      · intro h; exact absurd h (List.not_mem_nil n)
      · intro h
        have := markerAt_length h
        simp at this
    | cons c cs =>
      cases hm : matchFrame (c :: cs) with
      | some p =>
        obtain ⟨n', rest⟩ := p
        have hunf : scanAll matchFrame (fuel + 1) (c :: cs)
            = n' :: scanAll matchFrame fuel rest := by
          simp only [scanAll, hm]
        obtain ⟨ds1, ds2, hdec, h1, hdig1, h2, hdig2, hn'⟩ := matchFrame_sound hm
        have hrlen : rest.length ≤ fuel := by
          have hlt := matchFrame_lt hm
          simp only [List.length_cons] at hlt hlen
          omega
        have hdec' : c :: cs = ('D' :: '_' :: 'F' :: (ds1 ++ '_' :: ds2)) ++ rest := by
          rw [hdec]
          simp
        rw [hunf]
        constructor
        · intro h
          rcases List.mem_cons.1 h with h | h
          · subst h
            exact ⟨[], ds1, ds2, rest, by simpa using hdec, h1, hdig1, h2, hdig2, hn'⟩
          · rw [hdec']
            exact markerAt_append_left _ ((ih rest hrlen n).1 h)
        · intro h
          obtain ⟨pre, e1, e2, post, hp, g1, gdig1, g2, gdig2, gn⟩ := h
          cases pre with
          | nil =>
            obtain ⟨rest', hm'⟩ := matchFrame_complete e1 e2 post g1 gdig1 g2 gdig2
            rw [List.nil_append] at hp
            rw [hp, hm'] at hm
            have hinj := Option.some.inj hm
            exact List.mem_cons.2 (Or.inl (by rw [← gn]; exact congrArg Prod.fst hinj))
          | cons pc pre' =>
            have hboth : ('D' :: '_' :: 'F' :: (ds1 ++ '_' :: ds2)) ++ rest
                = (pc :: pre') ++ ('D' :: '_' :: 'F' :: (e1 ++ '_' :: (e2 ++ post))) := by
              rw [← hdec', hp]
            rcases List.append_eq_append_iff.1 hboth with ⟨a2, ha1, ha2⟩ | ⟨c2, hc1, hc2⟩
            · refine List.mem_cons.2 (Or.inr ((ih rest hrlen n).2 ?_))
              exact ⟨a2, e1, e2, post, ha2, g1, gdig1, g2, gdig2, gn⟩
            · cases c2 with
              | nil =>
                refine List.mem_cons.2 (Or.inr ((ih rest hrlen n).2 ?_))
                rw [List.nil_append] at hc2
                exact ⟨[], e1, e2, post, hc2.symm, g1, gdig1, g2, gdig2, gn⟩
              | cons d c2t =>
                exfalso
                have hdD : d = 'D' := by
                  have := congrArg (fun l => l.head?) hc2
                  simpa using this.symm
                subst hdD
                have hpc : ('D' :: ('_' :: 'F' :: (ds1 ++ '_' :: ds2)))
                    = pc :: (pre' ++ 'D' :: c2t) := by
                  simpa using hc1
                have htail : ('_' :: 'F' :: (ds1 ++ '_' :: ds2)) = pre' ++ 'D' :: c2t :=
                  (List.cons.injEq _ _ _ _ ▸ hpc).2
                have : 'D' ∈ ('_' :: 'F' :: (ds1 ++ '_' :: ds2)) := by
                  rw [htail]
                  exact List.mem_append_right pre' (List.mem_cons_self 'D' c2t)
                exact noD_in_markerTail hdig1 hdig2 this
      | none =>
        have hunf : scanAll matchFrame (fuel + 1) (c :: cs)
            = scanAll matchFrame fuel cs := by
          simp only [scanAll, hm]
        have hclen : cs.length ≤ fuel := by
          simp only [List.length_cons] at hlen
          omega
        rw [hunf, ih cs hclen n]
        constructor
        · intro h
          exact markerAt_append_left [c] h
        · intro h
          obtain ⟨pre, e1, e2, post, hp, g1, gdig1, g2, gdig2, gn⟩ := h
          cases pre with
          | nil =>
            exfalso
            obtain ⟨rest', hm'⟩ := matchFrame_complete e1 e2 post g1 gdig1 g2 gdig2
            rw [List.nil_append] at hp
            rw [hp, hm'] at hm
            cases hm
          | cons pc pre' =>
            have : cs = pre' ++ 'D' :: '_' :: 'F' :: (e1 ++ '_' :: (e2 ++ post)) :=
              (List.cons.injEq _ _ _ _ ▸ hp).2
            exact ⟨pre', e1, e2, post, this, g1, gdig1, g2, gdig2, gn⟩

/-- `scanFrames` finds exactly the frame indices occurring in markers. -/
theorem scanFrames_mem (s : List Char) (n : Nat) :
    n ∈ scanFrames s ↔ markerAt s n :=
  scanAll_frame_mem s.length s (Nat.le_refl _) n

theorem foldl_max_bounds (ms : List Nat) :
    ∀ m : Nat, m ≤ ms.foldl Nat.max m ∧ ∀ x ∈ ms, x ≤ ms.foldl Nat.max m := by
  induction ms with
  | nil => intro m; exact ⟨Nat.le_refl m, by simp⟩
  | cons y ys ih =>
    intro m
    rw [List.foldl_cons]
    refine ⟨le_trans (Nat.le_max_left m y) (ih (Nat.max m y)).1, ?_⟩
    intro x hx
    rcases List.mem_cons.1 hx with h | h
    · subst h
      exact le_trans (Nat.le_max_right m x) (ih (Nat.max m x)).1
    · exact (ih (Nat.max m y)).2 x h

theorem foldl_max_mem (ms : List Nat) :
    ∀ m : Nat, ms.foldl Nat.max m = m ∨ ms.foldl Nat.max m ∈ ms := by
  induction ms with
  | nil => intro m; exact Or.inl rfl
  | cons y ys ih =>
    intro m
    rcases ih (Nat.max m y) with h | h
    · rcases Nat.le_total m y with hle | hle
      · right
        have hmax : Nat.max m y = y := Nat.max_eq_right hle
        rw [List.foldl_cons, h, hmax]
        exact List.mem_cons_self y ys
      · left
        have hmax : Nat.max m y = m := Nat.max_eq_left hle
        rw [List.foldl_cons, h, hmax]
    · right
      exact List.mem_cons_of_mem y h

/-! ## Buffer-dedup lemmas -/

theorem firstSeenSize_cons_ne {b : BufferRec} {rest : List BufferRec}
    {l : String} (h : l ≠ b.label) :
    firstSeenSize (b :: rest) l = firstSeenSize rest l := by
  unfold firstSeenSize
  rw [List.find?_cons_of_neg]
  simp only [beq_iff_eq]
  exact fun hc => h hc.symm

theorem firstSeenSize_cons_self (b : BufferRec) (rest : List BufferRec) :
    firstSeenSize (b :: rest) b.label = b.size := by
  unfold firstSeenSize
  rw [List.find?_cons_of_pos]
  simp

theorem insert_self_erase {α : Type} [DecidableEq α] (a : α) (s : Finset α) :
    insert a s = insert a (s.erase a) := by
  ext x
  by_cases hx : x = a <;> simp [hx]

theorem dedupBuffersGo_length (bs : List BufferRec) :
    ∀ seen : List String,
      (dedupBuffersGo bs seen).length
        = (((bs.map (fun b => b.label)).toFinset) \ seen.toFinset).card := by
  induction bs with
  | nil => intro seen; simp [dedupBuffersGo]
  | cons b rest ih =>
    intro seen
    rw [dedupBuffersGo]
    by_cases hb : b.label ∈ seen
    · rw [if_pos hb, ih]
      congr 1
      rw [List.map_cons, List.toFinset_cons]
      exact (Finset.insert_sdiff_of_mem _ (List.mem_toFinset.2 hb)).symm
    · rw [if_neg hb, List.length_cons, ih]
      simp only [List.map_cons, List.toFinset_cons]
      rw [Finset.sdiff_insert,
        Finset.insert_sdiff_of_not_mem _ (fun hc => hb (List.mem_toFinset.1 hc)),
        insert_self_erase,
        Finset.card_insert_of_not_mem (Finset.not_mem_erase _ _)]

theorem dedupBuffersGo_sum (bs : List BufferRec) :
    ∀ seen : List String,
      ((dedupBuffersGo bs seen).map Prod.snd).sum
        = Finset.sum (((bs.map (fun b => b.label)).toFinset) \ seen.toFinset)
            (firstSeenSize bs) := by
  induction bs with
  | nil => intro seen; simp [dedupBuffersGo]
  | cons b rest ih =>
    intro seen
    rw [dedupBuffersGo]
    by_cases hb : b.label ∈ seen
    · rw [if_pos hb, ih]
      rw [List.map_cons, List.toFinset_cons,
        Finset.insert_sdiff_of_mem _ (List.mem_toFinset.2 hb)]
      refine Finset.sum_congr rfl ?_
      intro l hl
      have hlne : l ≠ b.label := by
        rcases Finset.mem_sdiff.1 hl with ⟨_, hl2⟩
        exact fun h => hl2 (h ▸ List.mem_toFinset.2 hb)
      exact (firstSeenSize_cons_ne hlne).symm
    · rw [if_neg hb]
      rw [List.map_cons, List.sum_cons, ih (b.label :: seen)]
      simp only [List.map_cons, List.toFinset_cons]
      rw [Finset.sdiff_insert,
        Finset.insert_sdiff_of_not_mem _ (fun hc => hb (List.mem_toFinset.1 hc)),
        insert_self_erase,
        Finset.sum_insert (Finset.not_mem_erase _ _),
        firstSeenSize_cons_self]
      congr 1
      refine Finset.sum_congr rfl ?_
      intro l hl
      exact (firstSeenSize_cons_ne (Finset.mem_erase.1 hl).1).symm

/-! ## Bottleneck-classifier lemmas -/

theorem bottleneckStep_mem {st : String → Nat} {tt : Nat}
    {cats : String → List CatEntry} {nt : String × Nat} {c : String}
    {e : CatEntry} (h : e ∈ bottleneckStep st tt cats nt c) :
    e ∈ cats c ∨
      (¬ pctOf tt nt.2 < 1/2 ∧ classifyName nt.1 = some c ∧
        e = ⟨nt.1, nt.2, pctOf tt nt.2, pctOf tt (st nt.1)⟩) := by
  unfold bottleneckStep at h
  by_cases hp : pctOf tt nt.2 < 1/2
  · rw [if_pos hp] at h
    exact Or.inl h
  · rw [if_neg hp] at h
    cases hc : classifyName nt.1 with
    | none => rw [hc] at h; exact Or.inl h
    | some cat =>
      rw [hc] at h
      dsimp only at h
      by_cases hcc : c = cat
      · subst hcc
        rw [if_pos rfl] at h
        rcases List.mem_append.1 h with h | h
        · exact Or.inl h
        · exact Or.inr ⟨hp, rfl, by simpa using h⟩
      · rw [if_neg hcc] at h
        exact Or.inl h

theorem bottleneckFold_mem (st : String → Nat) (tt : Nat)
    (items : List (String × Nat)) :
    ∀ (init : String → List CatEntry) (c : String) (e : CatEntry),
      e ∈ (items.foldl (bottleneckStep st tt) init) c →
      e ∈ init c ∨
        ∃ nt ∈ items, ¬ pctOf tt nt.2 < 1/2 ∧ classifyName nt.1 = some c ∧
          e = ⟨nt.1, nt.2, pctOf tt nt.2, pctOf tt (st nt.1)⟩ := by
  induction items with
  | nil => intro init c e h; exact Or.inl h
  | cons nt rest ih =>
    intro init c e h
    rw [List.foldl_cons] at h
    rcases ih _ c e h with h' | h'
    · rcases bottleneckStep_mem h' with h'' | h''
      · exact Or.inl h''
      · exact Or.inr ⟨nt, List.mem_cons_self nt rest, h''⟩
    · obtain ⟨nt', hnt', hrest⟩ := h'
      exact Or.inr ⟨nt', List.mem_cons_of_mem nt hnt', hrest⟩

theorem bottleneckCategories_mem {st : String → Nat} {tt : Nat}
    {items : List (String × Nat)} {c : String} {e : CatEntry}
    (h : e ∈ bottleneckCategories st tt items c) :
    ∃ nt ∈ items, ¬ pctOf tt nt.2 < 1/2 ∧ classifyName nt.1 = some c ∧
      e = ⟨nt.1, nt.2, pctOf tt nt.2, pctOf tt (st nt.1)⟩ := by
  rcases bottleneckFold_mem st tt items (fun _ => []) c e h with h' | h'
  · exact absurd h' (List.not_mem_nil e)
  · exact h'

/-- The source `elif` chain agrees with first-match-wins lookup in the
spec's ordered pattern table. -/
theorem classifyName_eq_firstPatternMatch (n : String) :
    classifyName n = firstPatternMatch n := by
  unfold classifyName firstPatternMatch patternTable
  split_ifs with h1 h2 h3 h4 h5 h6 h7 h8 h9 <;>
    cases hsub : containsStr "submit" (lower n) <;>
      cases hwbg : containsStr "wbg" n <;>
        simp_all [List.find?]

/-! ## Summary lemmas -/

theorem compute_summary_buffers (r : Results) (h : r.buffers ≠ []) :
    (compute_summary r).total_buffer_memory
        = some (((dedupBuffers r.buffers).map Prod.snd).sum) ∧
    (compute_summary r).buffer_count = some ((dedupBuffers r.buffers).length) := by
  unfold compute_summary
  rw [if_neg h]
  exact ⟨rfl, rfl⟩

theorem compute_summary_rates_none (r : Results) (h : r.frame_count = 0) :
    (compute_summary r).draws_per_frame = none ∧
    (compute_summary r).instances_per_frame = none ∧
    (compute_summary r).dispatches_per_frame = none := by
  unfold compute_summary
  simp only [h, Nat.lt_irrefl, if_false]
  split_ifs <;> simp_all

/-! ## The claims -/

/-- **C1** — For every node table, sample list and time-delta list, and for
every function name, the aggregated total-time of that name is greater than
or equal to its aggregated self-time, and likewise the total-sample-count is
at least the self-sample-count: the leaf's name always receives the total
attribution for any sample that gives it self attribution. -/
theorem claim_total_ge_self (nodes : List (Nat × Node)) (samples : List Nat)
    (time_deltas : List Nat) (name : String) :
    (analyze_samples nodes samples time_deltas).self_time name
      ≤ (analyze_samples nodes samples time_deltas).total_time name ∧
    (analyze_samples nodes samples time_deltas).self_samples name
      ≤ (analyze_samples nodes samples time_deltas).total_samples name := by
  have h := foldl_preserve
    (fun a => ∀ s, a.self_time s ≤ a.total_time s ∧
      a.self_samples s ≤ a.total_samples s)
    (fun a p => processSample nodes a p.2 (time_deltas.getD p.1 0))
    (fun a p hp => processSample_le nodes a p.2 (time_deltas.getD p.1 0) hp)
    samples.enum emptyAnalysis (fun _ => ⟨Nat.le_refl 0, Nat.le_refl 0⟩)
  exact h name

/-- **C2** — For every node table (cyclic parent links included) and every
starting node id, stack reconstruction terminates (it is a total function
here, by the decreasing unvisited-key measure), the returned stack carries
no repeated node id, and its length is at most the number of distinct node
ids in the table. -/
theorem claim_stack_reconstruction_safe (nodes : List (Nat × Node))
    (node_id : Nat) :
    ((get_full_stack nodes node_id).map Prod.fst).Nodup ∧
    (get_full_stack nodes node_id).length
      ≤ ((nodes.map Prod.fst).toFinset).card := by
  refine ⟨(stackLoop_ids nodes (some node_id) []).2, ?_⟩
  have h := stackLoop_length nodes (some node_id) []
  simpa using h

/-- **C3** — For every sample with a non-empty reconstructed stack, the
aggregator adds the sample's time delta to the total-time (and 1 to the
total-sample-count) of each distinct function name occurring anywhere in
the stack exactly once, however many frames carry that name; names not on
the stack are untouched. -/
theorem claim_total_attribution_once (nodes : List (Nat × Node))
    (a : Analysis) (node_id delta : Nat) (name : String)
    (h : get_full_stack nodes node_id ≠ []) :
    (name ∈ (get_full_stack nodes node_id).map Prod.snd →
      (processSample nodes a node_id delta).total_time name
          = a.total_time name + delta ∧
      (processSample nodes a node_id delta).total_samples name
          = a.total_samples name + 1) ∧
    (name ∉ (get_full_stack nodes node_id).map Prod.snd →
      (processSample nodes a node_id delta).total_time name
          = a.total_time name ∧
      (processSample nodes a node_id delta).total_samples name
          = a.total_samples name) := by
  cases hstack : get_full_stack nodes node_id with
  | nil => exact absurd hstack h
  | cons hd rest =>
    obtain ⟨leaf_id, leaf_name⟩ := hd
    rw [processSample_eq_cons nodes a node_id delta leaf_id leaf_name rest hstack]
    rw [totalLoop_total_time, totalLoop_total_samples]
    dsimp only
    simp only [List.not_mem_nil, not_false_iff, and_true]
    constructor
    · intro hmem
      rw [if_pos hmem, if_pos hmem]
      exact ⟨rfl, rfl⟩
    · intro hmem
      rw [if_neg hmem, if_neg hmem]
      exact ⟨rfl, rfl⟩

/-- Witness for C3 at a concrete two-frame stack: the caller name `g`
appears once in the stack of node 1, and processing that sample adds the
delta 5 to its total time and 1 to its total count. -/
theorem claim_total_attribution_once_witness :
    get_full_stack [(1, mkNode "f" (some 2)), (2, mkNode "g" none)] 1 ≠ [] ∧
    "g" ∈ (get_full_stack [(1, mkNode "f" (some 2)), (2, mkNode "g" none)] 1).map Prod.snd ∧
    (processSample [(1, mkNode "f" (some 2)), (2, mkNode "g" none)]
        emptyAnalysis 1 5).total_time "g" = emptyAnalysis.total_time "g" + 5 ∧
    (processSample [(1, mkNode "f" (some 2)), (2, mkNode "g" none)]
        emptyAnalysis 1 5).total_samples "g" = emptyAnalysis.total_samples "g" + 1 := by
  have hne : get_full_stack [(1, mkNode "f" (some 2)), (2, mkNode "g" none)] 1 ≠ [] := by
    simp [get_full_stack, stackLoop, dictGet, mkNode, List.find?]
  have hmem : "g" ∈ (get_full_stack [(1, mkNode "f" (some 2)), (2, mkNode "g" none)] 1).map Prod.snd := by
    simp [get_full_stack, stackLoop, dictGet, mkNode, List.find?]
  have h := (claim_total_attribution_once [(1, mkNode "f" (some 2)), (2, mkNode "g" none)]
    emptyAnalysis 1 5 "g" hne).1 hmem
  exact ⟨hne, hmem, h.1, h.2⟩

/-- **C4** — For every total-time item list, self-time map and positive
denominator: every function filed in a category has share at least 0.5% of
the denominator (below-threshold functions are excluded), its category is
the one chosen by the `elif` chain, which agrees with first-match-wins
lookup in the fixed ordered pattern table, it is filed in at most one
category, and it stems from the item list (so unmatched functions — those
with `classifyName = none` — appear in no category). -/
theorem claim_bottleneck_classification (self_time : String → Nat)
    (total_time_us : Nat) (hpos : 0 < total_time_us)
    (items : List (String × Nat)) (c : String) (e : CatEntry)
    (h : e ∈ bottleneckCategories self_time total_time_us items c) :
    ¬ pctOf total_time_us e.t < 1/2 ∧
    classifyName e.name = some c ∧
    firstPatternMatch e.name = some c ∧
    (∀ c', e ∈ bottleneckCategories self_time total_time_us items c' → c' = c) ∧
    (e.name, e.t) ∈ items := by
  obtain ⟨nt, hnt, hpct, hcl, he⟩ := bottleneckCategories_mem h
  have hname : e.name = nt.1 := by rw [he]
  have ht : e.t = nt.2 := by rw [he]
  refine ⟨by rw [ht]; exact hpct, by rw [hname]; exact hcl,
    by rw [← classifyName_eq_firstPatternMatch, hname]; exact hcl, ?_,
    by rw [hname, ht]; exact hnt⟩
  intro c' h'
  obtain ⟨nt', hnt', hpct', hcl', he'⟩ := bottleneckCategories_mem h'
  rw [he] at he'
  have hn1 : nt.1 = nt'.1 := congrArg CatEntry.name he'
  have hcl'' : classifyName nt.1 = some c' := by rw [hn1]; exact hcl'
  exact Option.some.inj (hcl''.symm.trans hcl)

/-- Witness for C4: the single item `("foo_new_from_slice", 50)` with
denominator 100 is filed under the memory-copy category, its share 50% is
above threshold, the first pattern matches, and the category is unique. -/
theorem claim_bottleneck_classification_witness :
    ¬ pctOf 100 50 < 1/2 ∧
    classifyName "foo_new_from_slice" = some "WASM→JS Memory Copy" ∧
    firstPatternMatch "foo_new_from_slice" = some "WASM→JS Memory Copy" ∧
    (∀ c', (⟨"foo_new_from_slice", 50, pctOf 100 50, pctOf 100 0⟩ : CatEntry)
        ∈ bottleneckCategories (fun _ => 0) 100 [("foo_new_from_slice", 50)] c'
        → c' = "WASM→JS Memory Copy") ∧
    ("foo_new_from_slice", (50 : Nat)) ∈ [("foo_new_from_slice", (50 : Nat))] := by
  have hcls : classifyName "foo_new_from_slice" = some "WASM→JS Memory Copy" := by decide
  have hpct : ¬ pctOf 100 50 < 1/2 := by
    unfold pctOf
    norm_num
  have hmem : (⟨"foo_new_from_slice", 50, pctOf 100 50, pctOf 100 0⟩ : CatEntry)
      ∈ bottleneckCategories (fun _ => 0) 100 [("foo_new_from_slice", 50)]
        "WASM→JS Memory Copy" := by
    unfold bottleneckCategories
    rw [List.foldl_cons, List.foldl_nil]
    unfold bottleneckStep
    dsimp only
    rw [if_neg hpct, hcls]
    simp
  exact claim_bottleneck_classification (fun _ => 0) 100 (by decide)
    [("foo_new_from_slice", 50)] "WASM→JS Memory Copy"
    ⟨"foo_new_from_slice", 50, pctOf 100 50, pctOf 100 0⟩ hmem

/-- **C5** — For every recording text, the parsed frame count is one plus
the greatest frame index occurring in a `D_F<n>_<m>` marker, and zero when
no such marker occurs anywhere in the text. -/
theorem claim_frame_count (content : List Char) :
    (frame_count content = 0 ∧ ∀ n, ¬ markerAt content n) ∨
    (∃ n, markerAt content n ∧ (∀ m, markerAt content m → m ≤ n) ∧
      frame_count content = n + 1) := by
  cases hs : scanFrames content with
  | nil =>
    left
    refine ⟨by simp [frame_count, hs], fun n hn => ?_⟩
    have hmem := (scanFrames_mem content n).2 hn
    rw [hs] at hmem
    exact absurd hmem (List.not_mem_nil n)
  | cons m ms =>
    right
    refine ⟨ms.foldl Nat.max m, ?_, ?_, ?_⟩
    · apply (scanFrames_mem content _).1
      rw [hs]
      rcases foldl_max_mem ms m with h | h
      · rw [h]; exact List.mem_cons_self m ms
      · exact List.mem_cons_of_mem m h
    · intro k hk
      have hmem := (scanFrames_mem content k).2 hk
      rw [hs] at hmem
      rcases List.mem_cons.1 hmem with h | h
      · exact h ▸ (foldl_max_bounds ms m).1
      · exact (foldl_max_bounds ms m).2 k h
    · simp [frame_count, hs]

/-- **C6** — For every parsed result with a non-empty buffer list (in
particular lists carrying duplicate labels with differing sizes), the
summary's total buffer memory is the sum, over the distinct labels, of the
size of the first-encountered record carrying that label, and the buffer
count is the number of distinct labels. -/
theorem claim_buffer_dedup (r : Results) (h : r.buffers ≠ []) :
    (compute_summary r).total_buffer_memory
      = some (Finset.sum ((r.buffers.map (fun b => b.label)).toFinset)
          (firstSeenSize r.buffers)) ∧
    (compute_summary r).buffer_count
      = some (((r.buffers.map (fun b => b.label)).toFinset).card) := by
  have hmem := compute_summary_buffers r h
  constructor
  · rw [hmem.1, dedupBuffers, dedupBuffersGo_sum]
    simp
  · rw [hmem.2, dedupBuffers, dedupBuffersGo_length]
    simp

/-- Witness for C6: three buffer records with labels `a, a, b` and sizes
`4, 7, 2` — the duplicate label `a` keeps its first-seen size 4. -/
theorem claim_buffer_dedup_witness :
    (Results.mk [] [] [⟨4, "a"⟩, ⟨7, "a"⟩, ⟨2, "b"⟩] [] 0).buffers ≠ [] ∧
    (compute_summary (Results.mk [] [] [⟨4, "a"⟩, ⟨7, "a"⟩, ⟨2, "b"⟩] [] 0)).total_buffer_memory
      = some (Finset.sum
          (((Results.mk [] [] [⟨4, "a"⟩, ⟨7, "a"⟩, ⟨2, "b"⟩] [] 0).buffers.map
              (fun b => b.label)).toFinset)
          (firstSeenSize (Results.mk [] [] [⟨4, "a"⟩, ⟨7, "a"⟩, ⟨2, "b"⟩] [] 0).buffers)) ∧
    (compute_summary (Results.mk [] [] [⟨4, "a"⟩, ⟨7, "a"⟩, ⟨2, "b"⟩] [] 0)).buffer_count
      = some ((((Results.mk [] [] [⟨4, "a"⟩, ⟨7, "a"⟩, ⟨2, "b"⟩] [] 0).buffers.map
          (fun b => b.label)).toFinset).card) := by
  refine ⟨by decide, ?_, ?_⟩
  · exact (claim_buffer_dedup _ (by decide)).1
  · exact (claim_buffer_dedup _ (by decide)).2

/-- **C7** — Per-frame rate keys (`draws_per_frame`, `instances_per_frame`,
`dispatches_per_frame`) are present in the summary only when the frame
count is positive: with frame count zero all three are absent (so no
division by zero occurs), and a recording with no frame marker parses to
frame count zero. -/
theorem claim_per_frame_rate_guard :
    (∀ r : Results, r.frame_count = 0 →
      (compute_summary r).draws_per_frame = none ∧
      (compute_summary r).instances_per_frame = none ∧
      (compute_summary r).dispatches_per_frame = none) ∧
    (∀ content : List Char, (∀ n, ¬ markerAt content n) →
      (parse_webgpu_recording content).frame_count = 0) := by
  constructor
  · exact compute_summary_rates_none
  · intro content h
    show frame_count content = 0
    cases hs : scanFrames content with
    | nil => simp [frame_count, hs]
    | cons m ms =>
      exact absurd ((scanFrames_mem content m).1 (hs ▸ List.mem_cons_self m ms)) (h m)

/-- Witness for C7 at the empty record set and at a marker-free text. -/
theorem claim_per_frame_rate_guard_witness :
    (compute_summary (Results.mk [] [] [] [] 0)).draws_per_frame = none ∧
    (compute_summary (Results.mk [] [] [] [] 0)).instances_per_frame = none ∧
    (compute_summary (Results.mk [] [] [] [] 0)).dispatches_per_frame = none ∧
    (parse_webgpu_recording "abc".data).frame_count = 0 := by
  have hnone : ∀ n, ¬ markerAt "abc".data n := by
    intro n hn
    obtain ⟨pre, ds1, ds2, post, hp, h1, _, h2, _, _⟩ := hn
    have l1 := List.length_pos.2 h1
    have l2 := List.length_pos.2 h2
    have hlen := congrArg List.length hp
    simp [List.length_append] at hlen
    omega
  have h1 := claim_per_frame_rate_guard.1 (Results.mk [] [] [] [] 0) rfl
  exact ⟨h1.1, h1.2.1, h1.2.2, claim_per_frame_rate_guard.2 "abc".data hnone⟩

/-- **C8** — Parsing the text containing exactly `.draw(10,5,0,0)` twice
and `.draw(10,2,0,0)` once yields two draw configurations with counts 2
and 1, 12 total instances, and 120 total vertices. -/
theorem claim_draw_config_example :
    draw_configs (parse_webgpu_recording
        ".draw(10,5,0,0) .draw(10,5,0,0) .draw(10,2,0,0)".data).draws
      = [("vertices=10, instances=5", 2), ("vertices=10, instances=2", 1)] ∧
    (compute_summary (parse_webgpu_recording
        ".draw(10,5,0,0) .draw(10,5,0,0) .draw(10,2,0,0)".data)).total_instances
      = some 12 ∧
    (compute_summary (parse_webgpu_recording
        ".draw(10,5,0,0) .draw(10,5,0,0) .draw(10,2,0,0)".data)).total_vertices_drawn
      = some 120 := by
  refine ⟨by decide, by decide, by decide⟩

/-- **C9** — There is an input with a sample whose stack is non-empty but
whose time deltas sum to zero (here: an empty `timeDeltas` list) on which
the report's active-time percentage divides by zero — the division at
`print_report` line 311 is unguarded, embedded here as `none`. -/
theorem claim_active_time_div_by_zero :
    (∃ s ∈ ([1] : List Nat), get_full_stack [(1, mkNode "f" none)] s ≠ []) ∧
    ([] : List Nat).sum = 0 ∧
    reportActivePct [(1, mkNode "f" none)] [1] [] = none := by
  refine ⟨⟨1, List.mem_cons_self 1 [], ?_⟩, rfl, rfl⟩
  simp [get_full_stack, stackLoop, dictGet, mkNode, List.find?]

/-- **C10** — For every node table (also one containing a node with id 0),
stack reconstruction from node id 0 yields the empty stack — the loop
condition treats id 0 like a null parent — so a sample with node id 0 is
skipped by the aggregator and contributes to no statistic. -/
theorem claim_node_zero_skipped (nodes : List (Nat × Node)) (a : Analysis)
    (delta : Nat) :
    get_full_stack nodes 0 = [] ∧ processSample nodes a 0 delta = a := by
  have h0 : get_full_stack nodes 0 = [] := stackLoop_zero nodes []
  exact ⟨h0, processSample_eq_nil nodes a 0 delta h0⟩

end Blade

